import Mathlib

/-!
# mcpio: a verification development for `main.go`

The program launches named child processes, gives each a FIFO for input and an
append-only log file, and optionally mirrors the traffic to the console.

Modelling conventions.

* A Go `string` is a sequence of bytes: `GoString := List UInt8`.  `lit "..."`
  is the UTF-8 encoding of a literal.
* Library calls (`regexp`, `bufio.Scanner`, `path/filepath`, `fmt`) are modelled
  by executable functions that follow the documented behaviour of the Go
  standard library on a Unix system.
* The goroutines of `runServer` are modelled as functions from what each one
  reads to the ordered list of writes it performs; a sequential interleaving of
  their loop bodies is modelled by a step function on `ServerState`.
-/

namespace Mcpio

/-! ## Strings -/

/-- A Go string: an immutable sequence of bytes. -/
abbrev GoString := List UInt8

/-- The bytes of a string literal of the source (Go source text is UTF-8). -/
def lit (s : String) : GoString := s.toUTF8.data.toList

/-- Concatenation of a list of strings, in order. -/
def concat : List GoString → GoString
  | [] => []
  | s :: ss => s ++ concat ss

/-! ## `serverSpec` and `parseServers` (main.go 18-58) -/

/-- The struct `serverSpec { Name string; Cmd []string }`. -/
structure serverSpec where
  Name : GoString
  Cmd : List GoString
deriving DecidableEq, Repr

/-- The two errors `parseServers` can return.  The text of the first one is
`server group %q requires at least a name and a command` applied to the group
joined with spaces; the model keeps the group instead of the formatted text. -/
inductive ParseError where
  | malformedGroup (group : List GoString)
  | noServers
deriving DecidableEq, Repr

/-- The result type `([]serverSpec, error)` and the `error` of `flush`. -/
inductive Res (α : Type) where
  | ok (val : α)
  | error (err : ParseError)
deriving DecidableEq, Repr

/-- The two local variables of `parseServers` that the closure `flush` captures. -/
structure ParseState where
  servers : List serverSpec
  group : List GoString
deriving DecidableEq, Repr

/-- The separator token `"--"`. -/
def sep : GoString := lit "--"

/-- The closure `flush` (main.go 30-41): an empty group is skipped, a group of
one token is an error, a longer group becomes a spec and the group is reset. -/
def flush (st : ParseState) : Res ParseState :=
  if h0 : st.group.length = 0 then
    .ok st
  else if st.group.length < 2 then
    .error (.malformedGroup st.group)
  else
    .ok ⟨st.servers ++ [⟨st.group[0], st.group.drop 1⟩], []⟩

/-- The loop `for _, a := range args` (main.go 42-50). -/
def parseLoop : List GoString → ParseState → Res ParseState
  | [], st => .ok st
  | a :: rest, st =>
    if a = sep then
      match flush st with
      | .error e => .error e
      | .ok st1 => parseLoop rest st1
    else
      parseLoop rest ⟨st.servers, st.group ++ [a]⟩

/-- The function `parseServers` (main.go 27-58). -/
def parseServers (args : List GoString) : Res (List serverSpec) :=
  match parseLoop args ⟨[], []⟩ with
  | .error e => .error e
  | .ok st =>
    match flush st with
    | .error e => .error e
    | .ok st1 =>
      if st1.servers.length = 0 then .error .noServers else .ok st1.servers

/-! ## `sanitizeName` (main.go 60-68) -/

/-- Membership of a byte in the character set `a-zA-Z0-9_-`.  The pattern of
`sanitizeName` is the negation of this set; a byte of a multi-byte or invalid
UTF-8 sequence is at least `0x80` and decodes to a rune outside the set, so a
maximal run of matching runes is a maximal run of bytes outside the set. -/
def isWordByte (b : UInt8) : Bool :=
  (97 ≤ b && b ≤ 122) || (65 ≤ b && b ≤ 90) || (48 ≤ b && b ≤ 57) || b == 95 || b == 45

/-- The call `regexp.MustCompile("[^a-zA-Z0-9_-]+").ReplaceAllString(src, repl)`
for a replacement without `$`: a left-to-right scan in which every maximal run
of bytes outside the set is replaced by `repl`.  The flag says whether the
previous byte belonged to the match that is being skipped. -/
def replaceAllString (repl : GoString) : Bool → GoString → GoString
  | _, [] => []
  | inMatch, b :: bs =>
    if isWordByte b then b :: replaceAllString repl false bs
    else if inMatch then replaceAllString repl true bs
    else repl ++ replaceAllString repl true bs

/-- The function `sanitizeName` (main.go 60-68). -/
def sanitizeName (name : GoString) : GoString :=
  let s := replaceAllString (lit "_") false name
  if s = [] then lit "server" else s

/-! ## `path/filepath` on Unix -/

/-- The path separator `'/'`. -/
def Separator : UInt8 := 47

/-- First piece and remaining pieces of a list split at every occurrence of `s`. -/
def splitAux {α : Type} [DecidableEq α] (s : α) : List α → List α × List (List α)
  | [] => ([], [])
  | a :: rest =>
    if a = s then ([], (splitAux s rest).1 :: (splitAux s rest).2)
    else (a :: (splitAux s rest).1, (splitAux s rest).2)

/-- The pieces of a list split at every occurrence of `s`, as `strings.Split`
does: one more piece than there are occurrences. -/
def splitAll {α : Type} [DecidableEq α] (s : α) (l : List α) : List (List α) :=
  (splitAux s l).1 :: (splitAux s l).2

/-- The call `strings.Join(elems, "/")`. -/
def joinElems : List GoString → GoString
  | [] => []
  | [e] => e
  | e :: es => e ++ Separator :: joinElems es

/-- The output buffer of `filepath.Clean`, kept as the list of path elements
written so far; `dotdot` counts the leading elements that a `..` cannot remove
(Go keeps the byte index behind them, `out.w > dotdot` is the same test). -/
structure CleanBuf where
  out : List GoString
  dotdot : Nat
deriving DecidableEq, Repr

/-- One iteration of the loop of `filepath.Clean`, on the next path element:
an empty element and `.` are dropped; `..` removes the last element when there
is one to remove, is dropped at the root, and is kept otherwise; any other
element is appended. -/
def cleanStep (rooted : Bool) (buf : CleanBuf) (e : GoString) : CleanBuf :=
  if e = [] then buf
  else if e = lit "." then buf
  else if e = lit ".." then
    if buf.out.length > buf.dotdot then ⟨buf.out.dropLast, buf.dotdot⟩
    else if rooted then buf
    else ⟨buf.out ++ [e], buf.out.length + 1⟩
  else ⟨buf.out ++ [e], buf.dotdot⟩

/-- Whether a path starts with the separator (`rooted` in `filepath.Clean`). -/
def isRooted (path : GoString) : Bool := path.head? == some Separator

/-- The output buffer of `filepath.Clean` after its loop over the path. -/
def cleanBuf (path : GoString) : CleanBuf :=
  (splitAll Separator path).foldl (cleanStep (isRooted path)) ⟨[], 0⟩

/-- The string `filepath.Clean` returns for a buffer: the elements joined by the
separator, behind the root separator for a rooted path; an empty result of a
path that is not rooted is turned into `"."`. -/
def render (rooted : Bool) (out : List GoString) : GoString :=
  if rooted then Separator :: joinElems out
  else if out = [] then lit "." else joinElems out

/-- The function `filepath.Clean` (Unix: no volume name, separator `/`). -/
def Clean (path : GoString) : GoString :=
  if path = [] then lit "." else render (isRooted path) (cleanBuf path).out

/-- The function `filepath.Join`: leading empty elements are ignored, the rest
is joined with the separator and cleaned; no non-empty element gives `""`. -/
def Join (elem : List GoString) : GoString :=
  match elem.dropWhile (fun e => decide (e = [])) with
  | [] => []
  | es => Clean (joinElems es)

/-- The state of the element-matching loop of `filepath.Rel` when it stops:
`baseRest` is `base[b0:]`, `baseElem` is `base[b0:bi]`, `targRest` is `targ[t0:]`. -/
structure RelPos where
  baseRest : GoString
  baseElem : GoString
  targRest : GoString
deriving DecidableEq, Repr

/-- The loop `for bi < bl && ti < tl` of `filepath.Rel`, on the suffixes
`base[b0:]` and `targ[t0:]`.  Every iteration shortens `base[b0:]`; the fuel
bounds the number of iterations and `none` means it ran out. -/
def relLoop : Nat → GoString → GoString → Option RelPos
  | 0, base, targ => if base = [] ∨ targ = [] then some ⟨base, [], targ⟩ else none
  | fuel + 1, base, targ =>
    if base = [] ∨ targ = [] then some ⟨base, [], targ⟩
    else
      let eb := base.takeWhile (fun b => decide (b ≠ Separator))
      let et := targ.takeWhile (fun b => decide (b ≠ Separator))
      if et ≠ eb then some ⟨base, eb, targ⟩
      else relLoop fuel ((base.drop eb.length).drop 1) ((targ.drop et.length).drop 1)

/-- The part of `filepath.Rel` behind the two calls of `Clean`; `none` stands
for the error `Rel: can't make <targ> relative to <base>`. -/
def relClean (base targ : GoString) : Option GoString :=
  if targ = base then some (lit ".")
  else
    let base := if base = lit "." then [] else base
    let baseSlashed := base.head? == some Separator
    let targSlashed := targ.head? == some Separator
    if baseSlashed != targSlashed then none
    else
      match relLoop base.length base targ with
      | none => none
      | some pos =>
        if pos.baseElem = lit ".." then none
        else if pos.baseRest ≠ [] then
          let seps := pos.baseRest.count Separator
          let up := lit ".." ++ concat (List.replicate seps (Separator :: lit ".."))
          if pos.targRest ≠ [] then some (up ++ Separator :: pos.targRest) else some up
        else some pos.targRest

/-- The function `filepath.Rel` (Unix: no volume names). -/
def Rel (basepath targpath : GoString) : Option GoString :=
  relClean (Clean basepath) (Clean targpath)
/-! ## `runServer`: setup (main.go 71-160) -/

/-- What the environment answers to the system calls of the setup, in the order
the code makes them: `none` is success, `some e` is a failure whose error
prints as `e`. -/
structure SetupEnv where
  mkdirAll : Option GoString
  mkfifo : Option GoString
  openLog : Option GoString
  stdinPipe : Option GoString
  stdoutPipe : Option GoString
  stderrPipe : Option GoString
  start : Option GoString
  openFifo : Option GoString
deriving DecidableEq, Repr

/-- How the setup part of `runServer` ends. -/
inductive SetupStatus where
  | returned
  | panicked
  | started
deriving DecidableEq, Repr

/-- The observable result of the setup: what was written to `os.Stdout`, what
was written to `os.Stderr`, and how the setup ended. -/
structure SetupOutcome where
  stdout : List GoString
  stderr : List GoString
  status : SetupStatus
deriving DecidableEq, Repr

/-- The directory `mcpDir` of `runServer` (main.go 76). -/
def mcpDir (baseDir : GoString) : GoString := Join [baseDir, lit ".mcpio"]

/-- The path `fifoPath` of `runServer` (main.go 82), from the sanitized name. -/
def fifoPath (baseDir name : GoString) : GoString :=
  Join [mcpDir baseDir, name ++ lit ".in.fifo"]

/-- The path `outLogPath` of `runServer` (main.go 83), from the sanitized name. -/
def outLogPath (baseDir name : GoString) : GoString :=
  Join [mcpDir baseDir, name ++ lit ".out.log"]

/-- The line written by `fmt.Fprintf(os.Stdout, "[%s:files]: %s %s\n", ...)`
(main.go 130-132); an error of `filepath.Rel` is discarded and leaves `""`. -/
def filesLine (baseDir name : GoString) : GoString :=
  let relIn := (Rel baseDir (fifoPath baseDir name)).getD []
  let relOut := (Rel baseDir (outLogPath baseDir name)).getD []
  lit "[" ++ name ++ lit ":files]: " ++ relIn ++ lit " " ++ relOut ++ lit "\n"

/-- A diagnostic `fmt.Fprintf(os.Stderr, "%s: <what>: %v\n", subject, err)`
followed by `return`. -/
def setupFail (subject : GoString) (what : String) (err : GoString) : SetupOutcome :=
  ⟨[], [subject ++ lit ": " ++ lit what ++ lit ": " ++ err ++ lit "\n"], .returned⟩

/-- The sequential part of `runServer` (main.go 71-160), up to the point where
the copier goroutines are started. -/
def runServerSetup (env : SetupEnv) (baseDir : GoString) (spec : serverSpec) :
    SetupOutcome :=
  let name := sanitizeName spec.Name
  match env.mkdirAll with
  | some e => setupFail (mcpDir baseDir) "mkdir failed" e
  | none =>
  match env.mkfifo with
  | some e => setupFail (fifoPath baseDir name) "fifo create failed" e
  | none =>
  match env.openLog with
  | some e => setupFail (outLogPath baseDir name) "open out log failed" e
  | none =>
  match spec.Cmd with
  | [] => ⟨[], [], .panicked⟩
  | _ :: _ =>
  match env.stdinPipe with
  | some e => setupFail name "stdin pipe failed" e
  | none =>
  match env.stdoutPipe with
  | some e => setupFail name "stdout pipe failed" e
  | none =>
  match env.stderrPipe with
  | some e => setupFail name "stderr pipe failed" e
  | none =>
  match env.start with
  | some e => setupFail name "start failed" e
  | none =>
  match env.openFifo with
  | some e =>
    ⟨[filesLine baseDir name], [name ++ lit ": fifo open failed: " ++ e ++ lit "\n"], .returned⟩
  | none => ⟨[filesLine baseDir name], [], .started⟩

/-! ## `bufio.Scanner` with the default split function `ScanLines` -/

/-- The constant `bufio.MaxScanTokenSize`, the largest buffer of a `Scanner`. -/
def MaxScanTokenSize : Nat := 64 * 1024

/-- The function `dropCR` of `bufio`: one trailing `\r` is removed. -/
def dropCR (data : GoString) : GoString :=
  if data.getLast? = some 13 then data.dropLast else data

/-- What a reader delivers before it ends: the bytes read, and the error that
ends the stream (`none` is `io.EOF`). -/
structure Reader where
  data : GoString
  readErr : Option GoString
deriving DecidableEq, Repr

/-- What a `for scanner.Scan()` loop sees: the successive values of
`scanner.Text()`, and the text of `scanner.Err()` afterwards (`none` is `nil`). -/
structure Scanned where
  lines : List GoString
  err : Option GoString
deriving DecidableEq, Repr

/-- The tokens of `ScanLines` on the unread bytes `data`, `pending` being the
bytes of the current line buffered so far.  A buffer of `MaxScanTokenSize`
bytes without a newline stops the scanner with `ErrTooLong` (the flag); a
newline ends a token; the end of the stream ends a last unterminated token. -/
def scanLoop : GoString → GoString → List GoString × Bool
  | [], pending =>
    if pending.length ≥ MaxScanTokenSize then ([], true)
    else if pending = [] then ([], false)
    else ([dropCR pending], false)
  | b :: rest, pending =>
    if pending.length ≥ MaxScanTokenSize then ([], true)
    else if b = 10 then
      (dropCR pending :: (scanLoop rest []).1, (scanLoop rest []).2)
    else scanLoop rest (pending ++ [b])

/-- The text of `bufio.ErrTooLong`. -/
def ErrTooLong : GoString := lit "bufio.Scanner: token too long"

/-- A `bufio.NewScanner(r)` run to the end with `Scan`. -/
def scan (r : Reader) : Scanned :=
  let res := scanLoop r.data []
  ⟨res.1, if res.2 then some ErrTooLong else r.readErr⟩
/-! ## `runServer`: the copier goroutines (main.go 134-205) -/

/-- Where a goroutine of `runServer` writes: the child's stdin pipe, the log
file `outLog`, or the console `os.Stdout`. -/
inductive Sink where
  | childStdin
  | logFile
  | console
deriving DecidableEq, Repr

/-- One write call: its destination and the bytes written. -/
structure Write where
  sink : Sink
  text : GoString
deriving DecidableEq, Repr

/-- Everything a list of writes puts on one destination, in order. -/
def textOn (k : Sink) (ws : List Write) : GoString :=
  concat ((ws.filter (fun w => decide (w.sink = k))).map (fun w => w.text))

/-- The console line `fmt.Fprintf(os.Stdout, "[%s:%s] %s\n", name, kind, line)`. -/
def prefixed (name kind line : GoString) : GoString :=
  lit "[" ++ name ++ lit ":" ++ kind ++ lit "] " ++ line ++ lit "\n"

/-- The line `fmt.Fprintf(log, "[%s:%s] copier error: %v\n", name, kind, err)`
written after a scan loop when `scanner.Err()` is neither `nil` nor `io.EOF`. -/
def copierError (name kind : GoString) : Option GoString → List Write
  | none => []
  | some e => [⟨.logFile, lit "[" ++ name ++ lit ":" ++ kind ++ lit "] copier error: " ++ e ++ lit "\n"⟩]

/-- The loop body of `copyWithPrefix` (main.go 138-143). -/
def copyLine (name kind : GoString) (alsoPrint : Bool) (line : GoString) : List Write :=
  ⟨.logFile, line ++ lit "\n"⟩ ::
    (if alsoPrint then [⟨.console, prefixed name kind line⟩] else [])

/-- The closure `copyWithPrefix` (main.go 135-149); `name` is captured. -/
def copyWithPrefix (name : GoString) (r : Reader) (kind : GoString) (alsoPrint : Bool) :
    List Write :=
  ((scan r).lines.map (copyLine name kind alsoPrint)).flatten ++ copierError name kind (scan r).err

/-- The loop body of the stderr copier (main.go 196-200); `gotInput` is the
value `gotInput.Load()` returns in this iteration. -/
def stderrLine (name : GoString) (printAll gotInput : Bool) (line : GoString) : List Write :=
  ⟨.logFile, line ++ lit "\n"⟩ ::
    (if printAll || !gotInput then [⟨.console, prefixed name (lit "err") line⟩] else [])

/-- The loop of the stderr copier on the lines still to come; `loads i` is the
value of `gotInput` that the iteration of line `i` loads. -/
def stderrLoop (name : GoString) (printAll : Bool) (loads : Nat → Bool) :
    Nat → List GoString → List Write
  | _, [] => []
  | i, line :: rest =>
    stderrLine name printAll (loads i) line ++ stderrLoop name printAll loads (i + 1) rest

/-- The stderr copier goroutine (main.go 192-205). -/
def stderrCopier (name : GoString) (printAll : Bool) (loads : Nat → Bool) (r : Reader) :
    List Write :=
  stderrLoop name printAll loads 0 (scan r).lines ++ copierError name (lit "err") (scan r).err

/-- The loop body of the input pump (main.go 173-180), without the store to
`gotInput`. -/
def pumpLine (name : GoString) (printIn : Bool) (line : GoString) : List Write :=
  ⟨.childStdin, line ++ lit "\n"⟩ ::
    (if printIn then [⟨.console, prefixed name (lit "in") line⟩] else [])

/-- The input pump goroutine (main.go 170-185) on what it reads from the FIFO:
its writes (the child is taken to accept what is written to its stdin). -/
def inputPump (name : GoString) (printIn : Bool) (fifo : Reader) : List Write :=
  ((scan fifo).lines.map (pumpLine name printIn)).flatten ++ copierError name (lit "in") (scan fifo).err


/-! ## `runServer`: a sequential interleaving of the three loops -/

/-- The state of one server: the flag `gotInput` and the writes made so far. -/
structure ServerState where
  gotInput : Bool
  writes : List Write
deriving DecidableEq, Repr

/-- The state when the goroutines start: `var gotInput atomic.Bool` is false. -/
def ServerState.init : ServerState := ⟨false, []⟩

/-- One loop iteration of one of the three goroutines. -/
inductive Event where
  | fifoLine (line : GoString)
  | stdoutLine (line : GoString)
  | stderrLine (line : GoString)
deriving DecidableEq, Repr

/-- The writes of one iteration, in the state in which it runs; `printIn` and
`printOut` are both `printAll` (main.go 165-166). -/
def stepWrites (name : GoString) (printAll : Bool) (st : ServerState) : Event → List Write
  | .fifoLine line => pumpLine name printAll line
  | .stdoutLine line => copyLine name (lit "out") printAll line
  | .stderrLine line => stderrLine name printAll st.gotInput line

/-- One iteration: its writes are appended, and the input pump sets `gotInput`
(`if !gotInput.Load() { gotInput.Store(true) }`). -/
def step (name : GoString) (printAll : Bool) (st : ServerState) (ev : Event) : ServerState :=
  ⟨(match ev with
    | .fifoLine _ => if !st.gotInput then true else st.gotInput
    | _ => st.gotInput),
   st.writes ++ stepWrites name printAll st ev⟩

/-- A sequence of iterations, from a state. -/
def run (name : GoString) (printAll : Bool) (st : ServerState) (evs : List Event) :
    ServerState :=
  evs.foldl (step name printAll) st

/-- Whether an event is an iteration of the input pump. -/
def Event.isInput : Event → Bool
  | .fifoLine _ => true
  | _ => false

/-! ## Spec-side vocabulary -/

/-- The groups obtained by splitting an argument list at every `--` token: one
more group than there are separators. -/
def splitGroups (args : List GoString) : List (List GoString) := splitAll sep args

/-- Folding `flush` over a list of complete groups, starting from the specs
collected so far. -/
def collect (servers : List serverSpec) : List (List GoString) → Res (List serverSpec)
  | [] => .ok servers
  | g :: gs =>
    match flush ⟨servers, g⟩ with
    | .error e => .error e
    | .ok st => collect st.servers gs

/-- The spec a group of at least two tokens stands for. -/
def groupSpec (g : List GoString) : serverSpec := ⟨g.headD [], g.drop 1⟩

/-- The lines of a FIFO as its writers see them: each followed by one newline. -/
def writeLines (lines : List GoString) : GoString :=
  concat (lines.map (fun l => l ++ lit "\n"))

/-- A path element that `filepath.Clean` keeps as it is: not empty, not `.`,
not `..`, and without a separator. -/
def RealElem (e : GoString) : Prop :=
  e ≠ [] ∧ e ≠ lit "." ∧ e ≠ lit ".." ∧ Separator ∉ e

/-- The shape of the buffer of `filepath.Clean`: `dotdot` leading `..` elements
(none for a rooted path) followed by kept elements. -/
def NormalBuf (rooted : Bool) (buf : CleanBuf) : Prop :=
  ∃ reals, buf.out = List.replicate buf.dotdot (lit "..") ++ reals ∧
    (∀ e ∈ reals, RealElem e) ∧ (rooted = true → buf.dotdot = 0)

/-- An element of a cleaned path: not empty, not `.`, without a separator. -/
def PlainElem (e : GoString) : Prop := e ≠ [] ∧ e ≠ lit "." ∧ Separator ∉ e

/-- The process of a spec was spawned: every step of the setup up to and
including `cmd.Start()` succeeded, and `spec.Cmd[0]` exists. -/
def Spawned (env : SetupEnv) (spec : serverSpec) : Prop :=
  env.mkdirAll = none ∧ env.mkfifo = none ∧ env.openLog = none ∧ spec.Cmd ≠ [] ∧
    env.stdinPipe = none ∧ env.stdoutPipe = none ∧ env.stderrPipe = none ∧ env.start = none
/-! ## Lemmas on `parseServers` -/

theorem splitGroups_eq_splitOn (args : List GoString) :
    splitGroups args = args.splitOn sep := by
  induction args with
  | nil => rfl
  | cons a rest ih =>
    unfold List.splitOn at ih ⊢
    rw [List.splitOnP_cons, ← ih]
    by_cases h : a = sep <;> simp [splitGroups, splitAll, splitAux, h]

theorem flush_group_nil (st st1 : ParseState) (h : flush st = .ok st1) :
    st1.group = [] := by
  unfold flush at h
  split at h
  · rename_i h0
    cases h
    exact List.length_eq_zero.mp h0
  · split at h
    · cases h
    · cases h
      rfl

theorem parseLoop_flush (args : List GoString) (servers : List serverSpec)
    (g0 : List GoString) :
    (match parseLoop args ⟨servers, g0⟩ with
      | .error e => .error e
      | .ok st =>
        match flush st with
        | .error e => .error e
        | .ok st1 => .ok st1.servers)
      = collect servers ((g0 ++ (splitAux sep args).1) :: (splitAux sep args).2) := by
  induction args generalizing servers g0 with
  | nil =>
    simp only [parseLoop, splitAux, List.append_nil, collect]
  | cons a rest ih =>
    by_cases h : a = sep
    · simp only [parseLoop, splitAux, h, if_true, List.append_nil]
      rw [collect]
      cases hf : flush ⟨servers, g0⟩ with
      | error e => rfl
      | ok st1 =>
        have hg := flush_group_nil _ _ hf
        have := ih st1.servers []
        simp only [List.nil_append] at this
        simp only
        rw [← this]
        cases st1
        simp only at hg
        subst hg
        rfl
    · simp only [parseLoop, splitAux, h, if_false]
      rw [ih]
      simp

theorem parseServers_eq_collect (args : List GoString) :
    parseServers args =
      match collect [] (splitGroups args) with
      | .error e => .error e
      | .ok servers => if servers.length = 0 then .error .noServers else .ok servers := by
  have h := parseLoop_flush args [] []
  simp only [List.nil_append] at h
  unfold splitGroups splitAll
  rw [← h, parseServers]
  cases parseLoop args ⟨[], []⟩ with
  | error e => rfl
  | ok st =>
    simp only
    cases flush st <;> rfl

theorem flush_long (servers : List serverSpec) (g : List GoString) (h : 2 ≤ g.length) :
    flush ⟨servers, g⟩ = .ok ⟨servers ++ [groupSpec g], []⟩ := by
  match g, h with
  | a :: b :: rest, _ => simp [flush, groupSpec]

theorem flush_one (servers : List serverSpec) (g : List GoString) (h : g.length = 1) :
    flush ⟨servers, g⟩ = .error (.malformedGroup g) := by
  match g, h with
  | [a], _ => simp [flush]

theorem flush_nil (servers : List serverSpec) :
    flush ⟨servers, []⟩ = .ok ⟨servers, []⟩ := by
  simp [flush]

theorem collect_no_singleton (gs : List (List GoString)) (servers : List serverSpec)
    (h : ∀ g ∈ gs, g.length ≠ 1) :
    collect servers gs
      = .ok (servers ++ (gs.filter (fun g => decide (g ≠ []))).map groupSpec) := by
  induction gs generalizing servers with
  | nil => simp [collect]
  | cons g gs ih =>
    have hg := h g (List.mem_cons_self _ _)
    have ht : ∀ g1 ∈ gs, g1.length ≠ 1 := fun g1 h1 => h g1 (List.mem_cons_of_mem _ h1)
    rw [collect]
    by_cases hn : g = []
    · subst hn
      rw [flush_nil]
      simp only
      rw [ih _ ht]
      simp
    · have h2 : 2 ≤ g.length := by
        have : g.length ≠ 0 := fun h0 => hn (List.length_eq_zero.mp h0)
        omega
      rw [flush_long _ _ h2]
      simp only
      rw [ih _ ht]
      simp [hn]

theorem collect_singleton (gs : List (List GoString)) (servers : List serverSpec)
    (h : ∃ g ∈ gs, g.length = 1) :
    ∃ e, collect servers gs = .error e := by
  induction gs generalizing servers with
  | nil => simp at h
  | cons g gs ih =>
    rw [collect]
    by_cases h1 : g.length = 1
    · rw [flush_one _ _ h1]
      exact ⟨_, rfl⟩
    · have ht : ∃ g1 ∈ gs, g1.length = 1 := by
        obtain ⟨g1, hm, hl⟩ := h
        rcases List.mem_cons.mp hm with rfl | hm
        · exact absurd hl h1
        · exact ⟨g1, hm, hl⟩
      by_cases hn : g = []
      · subst hn
        rw [flush_nil]
        exact ih _ ht
      · have h2 : 2 ≤ g.length := by
          have : g.length ≠ 0 := fun h0 => hn (List.length_eq_zero.mp h0)
          omega
        rw [flush_long _ _ h2]
        exact ih _ ht

theorem not_mem_splitAux {α : Type} [DecidableEq α] (s : α) (l : List α) :
    s ∉ (splitAux s l).1 ∧ ∀ g ∈ (splitAux s l).2, s ∉ g := by
  induction l with
  | nil => simp [splitAux]
  | cons a rest ih =>
    by_cases h : a = s
    · simp only [splitAux, h, if_true]
      refine ⟨by simp, ?_⟩
      intro g hg
      rcases List.mem_cons.mp hg with rfl | hg
      · exact ih.1
      · exact ih.2 g hg
    · simp only [splitAux, h, if_false]
      refine ⟨?_, ih.2⟩
      intro hm
      rcases List.mem_cons.mp hm with h1 | h1
      · exact h h1.symm
      · exact ih.1 h1

theorem not_mem_splitAll {α : Type} [DecidableEq α] (s : α) (l : List α) :
    ∀ g ∈ splitAll s l, s ∉ g := by
  intro g hg
  rcases List.mem_cons.mp hg with rfl | hg
  · exact (not_mem_splitAux s l).1
  · exact (not_mem_splitAux s l).2 g hg

theorem parseServers_no_singleton (args : List GoString)
    (h : ∀ g ∈ splitGroups args, g.length ≠ 1) :
    parseServers args =
      if ((splitGroups args).filter (fun g => decide (g ≠ []))).length = 0
      then .error .noServers
      else .ok (((splitGroups args).filter (fun g => decide (g ≠ []))).map groupSpec) := by
  rw [parseServers_eq_collect, collect_no_singleton _ _ h]
  simp

theorem parseServers_ok_inv (args : List GoString) (specs : List serverSpec)
    (h : parseServers args = .ok specs) :
    specs ≠ [] ∧
      specs = ((splitGroups args).filter (fun g => decide (g ≠ []))).map groupSpec ∧
      ∀ g ∈ splitGroups args, g.length ≠ 1 := by
  have hno : ∀ g ∈ splitGroups args, g.length ≠ 1 := by
    intro g hg h1
    obtain ⟨e, he⟩ := collect_singleton (splitGroups args) [] ⟨g, hg, h1⟩
    rw [parseServers_eq_collect, he] at h
    cases h
  rw [parseServers_no_singleton args hno] at h
  split at h
  · cases h
  · rename_i hne
    cases h
    refine ⟨?_, rfl, hno⟩
    intro h0
    exact hne (by rw [← List.length_map _ groupSpec, h0]; rfl)

theorem parseServers_all_empty (args : List GoString)
    (h : ∀ g ∈ splitGroups args, g.length = 0) :
    parseServers args = .error .noServers := by
  have hno : ∀ g ∈ splitGroups args, g.length ≠ 1 := fun g hg h1 => by
    have := h g hg
    omega
  have hfilter : (splitGroups args).filter (fun g => decide (g ≠ [])) = [] := by
    apply List.filter_eq_nil_iff.mpr
    intro g hg
    have := List.length_eq_zero.mp (h g hg)
    simp [this]
  rw [parseServers_no_singleton args hno, hfilter]
  rfl

/-- The error cases of `parseServers` are exactly these two: a group of one
token, or no group with a token. -/
theorem parseServers_fails_iff (args : List GoString) :
    (∃ e, parseServers args = .error e) ↔
      ((∀ g ∈ splitGroups args, g.length = 0) ∨ ∃ g ∈ splitGroups args, g.length = 1) := by
  constructor
  · rintro ⟨e, he⟩
    by_cases h1 : ∃ g ∈ splitGroups args, g.length = 1
    · exact Or.inr h1
    · left
      have hno : ∀ g ∈ splitGroups args, g.length ≠ 1 := fun g hg hl => h1 ⟨g, hg, hl⟩
      rw [parseServers_no_singleton args hno] at he
      split at he
      · rename_i hlen
        have hnil := List.length_eq_zero.mp hlen
        intro g hg
        by_contra hg0
        have hne : g ≠ [] := fun h0 => hg0 (by rw [h0]; rfl)
        have : g ∈ (splitGroups args).filter (fun g => decide (g ≠ [])) :=
          List.mem_filter.mpr ⟨hg, by simpa using hne⟩
        rw [hnil] at this
        cases this
      · cases he
  · rintro (h | h)
    · exact ⟨_, parseServers_all_empty args h⟩
    · obtain ⟨e, he⟩ := collect_singleton (splitGroups args) [] h
      exact ⟨e, by rw [parseServers_eq_collect, he]⟩

/-! ## Claims on `parseServers` -/

/-- C2: for an argument list whose groups (split at every `--`) all have at
least two tokens, `parseServers` succeeds and returns one spec per group, in
order, each with `Name` the first token of its group and `Cmd` the remaining
tokens of that group. -/
theorem parseServers_valid (args : List GoString)
    (hne : splitGroups args ≠ [])
    (h : ∀ g ∈ splitGroups args, 2 ≤ g.length) :
    ∃ specs, parseServers args = .ok specs ∧
      specs.length = (splitGroups args).length ∧
      List.Forall₂ (fun g s => g = s.Name :: s.Cmd) (splitGroups args) specs := by
  have hno : ∀ g ∈ splitGroups args, g.length ≠ 1 := fun g hg h1 => by
    have := h g hg
    omega
  have hfilter : (splitGroups args).filter (fun g => decide (g ≠ [])) = splitGroups args := by
    apply List.filter_eq_self.mpr
    intro g hg
    have := h g hg
    have : g ≠ [] := by
      intro h0
      subst h0
      simp at this
    simpa using this
  refine ⟨(splitGroups args).map groupSpec, ?_, by simp, ?_⟩
  · rw [parseServers_no_singleton args hno, hfilter]
    have : (splitGroups args).length ≠ 0 := fun h0 => hne (List.length_eq_zero.mp h0)
    simp [this]
  · rw [List.forall₂_map_right_iff]
    apply List.forall₂_same.mpr
    intro g hg
    have := h g hg
    match g, this with
    | a :: b :: rest, _ => simp [groupSpec]

/-- Witness of C2 on the arguments `a cat -- b sh -c ls`. -/
theorem parseServers_valid_witness :
    ∃ specs, parseServers [lit "a", lit "cat", lit "--", lit "b", lit "sh", lit "-c", lit "ls"]
        = .ok specs ∧
      specs.length
        = (splitGroups [lit "a", lit "cat", lit "--", lit "b", lit "sh", lit "-c", lit "ls"]).length ∧
      List.Forall₂ (fun g s => g = s.Name :: s.Cmd)
        (splitGroups [lit "a", lit "cat", lit "--", lit "b", lit "sh", lit "-c", lit "ls"]) specs :=
  parseServers_valid _ (by decide) (by decide)

/-- C3, as stated, fails: the argument list `-- a b` has a group with zero
tokens, and `parseServers` accepts it. -/
theorem parseServers_empty_group_accepted :
    (∃ g ∈ splitGroups [lit "--", lit "a", lit "b"], g.length < 2) ∧
      parseServers [lit "--", lit "a", lit "b"] = .ok [⟨lit "a", [lit "b"]⟩] := by
  decide

/-- C3, amended: `parseServers` returns an error for every argument list in
which some group (split at every `--`) has exactly one token, and for every
argument list in which every group is empty, the empty argument list included;
in the second case, and for the empty list, the error is `no servers specified`. -/
theorem parseServers_error (args : List GoString)
    (h : (∀ g ∈ splitGroups args, g.length = 0) ∨ ∃ g ∈ splitGroups args, g.length = 1) :
    (∃ e, parseServers args = .error e) ∧
      ((∀ g ∈ splitGroups args, g.length = 0) → parseServers args = .error .noServers) ∧
      (args = [] → parseServers args = .error .noServers) := by
  have hempty : (∀ g ∈ splitGroups args, g.length = 0) →
      parseServers args = .error .noServers := parseServers_all_empty args
  refine ⟨?_, hempty, ?_⟩
  · rcases h with h | h
    · exact ⟨_, hempty h⟩
    · obtain ⟨e, he⟩ := collect_singleton (splitGroups args) [] h
      exact ⟨e, by rw [parseServers_eq_collect, he]⟩
  · intro h0
    subst h0
    rfl

/-- Witness of the amended C3 on the arguments `a cat -- b` (a group of one
token), `-- --` (every group empty) and the empty list. -/
theorem parseServers_error_witness :
    ((∃ e, parseServers [lit "a", lit "cat", lit "--", lit "b"] = .error e) ∧
      ((∀ g ∈ splitGroups [lit "a", lit "cat", lit "--", lit "b"], g.length = 0) →
        parseServers [lit "a", lit "cat", lit "--", lit "b"] = .error .noServers) ∧
      ([lit "a", lit "cat", lit "--", lit "b"] = [] →
        parseServers [lit "a", lit "cat", lit "--", lit "b"] = .error .noServers)) ∧
    parseServers [lit "--", lit "--"] = .error .noServers ∧
    parseServers [] = .error .noServers :=
  ⟨parseServers_error _ (Or.inr ⟨[lit "b"], by decide, by decide⟩),
    (parseServers_error [lit "--", lit "--"] (Or.inl (by decide))).2.1 (by decide),
    (parseServers_error [] (Or.inl (by decide))).2.2 rfl⟩

/-- C10: when `parseServers` succeeds the list is non-empty, and every spec has
a non-empty `Cmd`, a `Name` other than `--` and no `--` in `Cmd`; so
`spec.Cmd[0]` in `runServer` does not panic for such a spec, whatever the
environment answers. -/
theorem parseServers_specs_safe (args : List GoString) (specs : List serverSpec)
    (h : parseServers args = .ok specs) :
    specs ≠ [] ∧ ∀ s ∈ specs,
      1 ≤ s.Cmd.length ∧ s.Name ≠ sep ∧ (∀ c ∈ s.Cmd, c ≠ sep) ∧
      ∀ env baseDir, (runServerSetup env baseDir s).status ≠ .panicked := by
  obtain ⟨hne, hspecs, hno⟩ := parseServers_ok_inv args specs h
  refine ⟨hne, ?_⟩
  intro s hs
  rw [hspecs] at hs
  obtain ⟨g, hg, rfl⟩ := List.mem_map.mp hs
  obtain ⟨hmem, hnil⟩ := List.mem_filter.mp hg
  have hsep := not_mem_splitAll sep args g hmem
  have h1 := hno g hmem
  match g, hnil, h1, hsep with
  | [a], _, h1, _ => simp at h1
  | a :: b :: rest, _, _, hsep =>
    have ha : a ≠ sep := fun h0 => hsep (by simp [h0])
    have hc : ∀ c ∈ b :: rest, c ≠ sep := fun c hc h0 =>
      hsep (by rw [← h0]; exact List.mem_cons_of_mem _ hc)
    refine ⟨by simp [groupSpec], by simpa [groupSpec] using ha, by simpa [groupSpec] using hc, ?_⟩
    intro env baseDir
    simp only [runServerSetup, groupSpec, List.drop_succ_cons, List.drop_zero, setupFail]
    cases env.mkdirAll <;> cases env.mkfifo <;> cases env.openLog <;>
      cases env.stdinPipe <;> cases env.stdoutPipe <;> cases env.stderrPipe <;>
      cases env.start <;> cases env.openFifo <;> simp

/-- Witness of C10 on the arguments `a cat -- b sh -c ls`. -/
theorem parseServers_specs_safe_witness :
    [(⟨lit "a", [lit "cat"]⟩ : serverSpec), ⟨lit "b", [lit "sh", lit "-c", lit "ls"]⟩] ≠ [] ∧
      ∀ s ∈ [(⟨lit "a", [lit "cat"]⟩ : serverSpec), ⟨lit "b", [lit "sh", lit "-c", lit "ls"]⟩],
      1 ≤ s.Cmd.length ∧ s.Name ≠ sep ∧ (∀ c ∈ s.Cmd, c ≠ sep) ∧
      ∀ env baseDir, (runServerSetup env baseDir s).status ≠ .panicked :=
  parseServers_specs_safe [lit "a", lit "cat", lit "--", lit "b", lit "sh", lit "-c", lit "ls"]
    _ (by decide)

/-! ## `sanitizeName` -/

theorem replaceAllString_of_word (repl : GoString) (flag : Bool) (s : GoString)
    (h : ∀ b ∈ s, isWordByte b = true) : replaceAllString repl flag s = s := by
  induction s generalizing flag with
  | nil => rfl
  | cons b bs ih =>
    have hb := h b (List.mem_cons_self _ _)
    simp only [replaceAllString, hb, if_true]
    rw [ih false (fun c hc => h c (List.mem_cons_of_mem _ hc))]

theorem replaceAllString_word (repl : GoString) (hr : ∀ b ∈ repl, isWordByte b = true)
    (flag : Bool) (s : GoString) :
    ∀ b ∈ replaceAllString repl flag s, isWordByte b = true := by
  induction s generalizing flag with
  | nil => simp [replaceAllString]
  | cons c cs ih =>
    intro b hb
    simp only [replaceAllString] at hb
    split at hb
    · rename_i hc
      rcases List.mem_cons.mp hb with rfl | hb
      · exact hc
      · exact ih false b hb
    · split at hb
      · exact ih true b hb
      · rcases List.mem_append.mp hb with hb | hb
        · exact hr b hb
        · exact ih true b hb

/-- Inside a match the scan skips the rest of the run of bytes outside the set. -/
theorem replaceAllString_true (repl : GoString) (s : GoString) :
    replaceAllString repl true s
      = replaceAllString repl false (s.dropWhile (fun b => !isWordByte b)) := by
  induction s with
  | nil => rfl
  | cons b bs ih =>
    by_cases hb : isWordByte b = true
    · simp [replaceAllString, List.dropWhile, hb]
    · simp only [Bool.not_eq_true] at hb
      simp [replaceAllString, List.dropWhile, hb, ih]

/-- A byte outside the set starts a match that extends over the whole maximal
run of such bytes and is replaced once. -/
theorem replaceAllString_run (repl : GoString) (b : UInt8) (s : GoString)
    (hb : isWordByte b = false) :
    replaceAllString repl false (b :: s)
      = repl ++ replaceAllString repl false (s.dropWhile (fun c => !isWordByte c)) := by
  simp [replaceAllString, hb, replaceAllString_true]

theorem sanitizeName_word (s : GoString) : ∀ b ∈ sanitizeName s, isWordByte b = true := by
  unfold sanitizeName
  simp only
  split
  · decide
  · exact replaceAllString_word _ (by decide) false s

theorem sanitizeName_ne_nil (s : GoString) : sanitizeName s ≠ [] := by
  unfold sanitizeName
  simp only
  split
  · decide
  · assumption

/-- C4: `sanitizeName` is idempotent. -/
theorem sanitizeName_idempotent (s : GoString) :
    sanitizeName (sanitizeName s) = sanitizeName s := by
  have hw := sanitizeName_word s
  have hn := sanitizeName_ne_nil s
  generalize sanitizeName s = t at hw hn
  unfold sanitizeName
  simp only
  rw [replaceAllString_of_word _ _ _ hw]
  simp [hn]

/-- C5: for every input, the result of `sanitizeName` is not empty and every
byte of it is in `[A-Za-z0-9_-]`; in particular it holds no `/` and no `.`. -/
theorem sanitizeName_safe (s : GoString) :
    sanitizeName s ≠ [] ∧
      (∀ b ∈ sanitizeName s,
        (97 ≤ b ∧ b ≤ 122) ∨ (65 ≤ b ∧ b ≤ 90) ∨ (48 ≤ b ∧ b ≤ 57) ∨ b = 95 ∨ b = 45) ∧
      Separator ∉ sanitizeName s ∧ (46 : UInt8) ∉ sanitizeName s := by
  refine ⟨sanitizeName_ne_nil s, ?_, ?_, ?_⟩
  · intro b hb
    have := sanitizeName_word s b hb
    simpa [isWordByte, or_assoc] using this
  · intro h
    exact absurd (sanitizeName_word s _ h) (by decide)
  · intro h
    exact absurd (sanitizeName_word s _ h) (by decide)

/-! ## The copier goroutines -/

theorem concat_append (xs ys : List GoString) : concat (xs ++ ys) = concat xs ++ concat ys := by
  induction xs with
  | nil => rfl
  | cons x xs ih => simp [concat, ih]

theorem textOn_nil (k : Sink) : textOn k [] = [] := rfl

theorem textOn_append (k : Sink) (xs ys : List Write) :
    textOn k (xs ++ ys) = textOn k xs ++ textOn k ys := by
  simp [textOn, concat_append]

theorem textOn_cons (k : Sink) (w : Write) (ws : List Write) :
    textOn k (w :: ws) = (if w.sink = k then w.text else []) ++ textOn k ws := by
  by_cases h : w.sink = k <;> simp [textOn, concat, h]

theorem textOn_copierError_ne (k : Sink) (hk : k ≠ .logFile) (name kind : GoString)
    (err : Option GoString) : textOn k (copierError name kind err) = [] := by
  cases err with
  | none => rfl
  | some e =>
    have : Sink.logFile ≠ k := fun h => hk h.symm
    simp [copierError, textOn_cons, textOn_nil, this]

theorem textOn_log_copyLine (name kind : GoString) (alsoPrint : Bool) (line : GoString) :
    textOn .logFile (copyLine name kind alsoPrint line) = line ++ lit "\n" := by
  cases alsoPrint <;> simp [copyLine, textOn_cons, textOn_nil]

theorem textOn_log_stderrLine (name : GoString) (printAll gotInput : Bool) (line : GoString) :
    textOn .logFile (stderrLine name printAll gotInput line) = line ++ lit "\n" := by
  cases printAll <;> cases gotInput <;> simp [stderrLine, textOn_cons, textOn_nil]

theorem textOn_stdin_pumpLine (name : GoString) (printIn : Bool) (line : GoString) :
    textOn .childStdin (pumpLine name printIn line) = line ++ lit "\n" := by
  cases printIn <;> simp [pumpLine, textOn_cons, textOn_nil]

theorem textOn_log_copyLines (name kind : GoString) (alsoPrint : Bool) (lines : List GoString) :
    textOn .logFile ((lines.map (copyLine name kind alsoPrint)).flatten) = writeLines lines := by
  induction lines with
  | nil => rfl
  | cons l ls ih =>
    simp only [List.map_cons, List.flatten_cons, textOn_append, textOn_log_copyLine, ih]
    rfl

theorem textOn_log_stderrLoop (name : GoString) (printAll : Bool) (loads : Nat → Bool)
    (i : Nat) (lines : List GoString) :
    textOn .logFile (stderrLoop name printAll loads i lines) = writeLines lines := by
  induction lines generalizing i with
  | nil => rfl
  | cons l ls ih =>
    simp only [stderrLoop, textOn_append, textOn_log_stderrLine, ih]
    rfl

theorem textOn_stdin_pumpLines (name : GoString) (printIn : Bool) (lines : List GoString) :
    textOn .childStdin ((lines.map (pumpLine name printIn)).flatten) = writeLines lines := by
  induction lines with
  | nil => rfl
  | cons l ls ih =>
    simp only [List.map_cons, List.flatten_cons, textOn_append, textOn_stdin_pumpLine, ih]
    rfl

/-! ## The scanner -/

theorem lit_newline : lit "\n" = [10] := by decide

theorem scanLoop_line (l rest pending : GoString) (hnl : (10 : UInt8) ∉ l)
    (hlen : (pending ++ l).length < MaxScanTokenSize) :
    scanLoop (l ++ 10 :: rest) pending
      = (dropCR (pending ++ l) :: (scanLoop rest []).1, (scanLoop rest []).2) := by
  induction l generalizing pending with
  | nil =>
    have h : ¬ pending.length ≥ MaxScanTokenSize := by simpa using hlen
    simp [scanLoop, h]
  | cons b bs ih =>
    have hb : b ≠ 10 := fun h => hnl (by simp [h])
    have hbs : (10 : UInt8) ∉ bs := fun h => hnl (List.mem_cons_of_mem _ h)
    have h : ¬ pending.length ≥ MaxScanTokenSize := by
      simp only [List.length_append, List.length_cons] at hlen
      omega
    have step : scanLoop ((b :: bs) ++ 10 :: rest) pending
        = scanLoop (bs ++ 10 :: rest) (pending ++ [b]) := by
      show scanLoop (b :: (bs ++ 10 :: rest)) pending = _
      simp only [scanLoop, h, hb, if_false]
    rw [step, ih (pending ++ [b]) hbs (by simpa using hlen)]
    simp

theorem scanLoop_writeLines (lines : List GoString)
    (h : ∀ l ∈ lines, (10 : UInt8) ∉ l ∧ l.length < MaxScanTokenSize) :
    scanLoop (writeLines lines) [] = (lines.map dropCR, false) := by
  induction lines with
  | nil => rfl
  | cons l ls ih =>
    obtain ⟨hnl, hlen⟩ := h l (List.mem_cons_self _ _)
    have ih := ih (fun x hx => h x (List.mem_cons_of_mem _ hx))
    have : writeLines (l :: ls) = l ++ 10 :: writeLines ls := by
      simp [writeLines, concat, lit_newline]
    rw [this, scanLoop_line l _ [] hnl (by simpa using hlen), ih]
    simp

theorem scanLoop_too_long (b : UInt8) (hb : b ≠ 10) (k : Nat) (rest pending : GoString)
    (h : pending.length + k ≥ MaxScanTokenSize) :
    scanLoop (List.replicate k b ++ rest) pending = ([], true) := by
  induction k generalizing pending with
  | zero =>
    have : pending.length ≥ MaxScanTokenSize := by simpa using h
    cases rest <;> simp [scanLoop, this]
  | succ k ih =>
    by_cases hp : pending.length ≥ MaxScanTokenSize
    · simp [List.replicate, scanLoop, hp]
    · rw [List.replicate_succ, List.cons_append]
      simp only [scanLoop, hp, hb, if_false]
      apply ih
      simp only [List.length_append, List.length_cons, List.length_nil]
      omega

theorem dropCR_of_no_cr (l : GoString) (h : l.getLast? ≠ some 13) : dropCR l = l := by
  simp [dropCR, h]

theorem dropCR_snoc_cr (d : GoString) : dropCR (d ++ [13]) = d := by
  simp [dropCR]

theorem writeLines_single (l : GoString) : writeLines [l] = l ++ [10] := by
  simp [writeLines, concat, lit_newline]

theorem inputPump_of_too_long (name : GoString) (printIn : Bool) (data : GoString)
    (readErr : Option GoString) (h : scanLoop data [] = ([], true)) :
    textOn .childStdin (inputPump name printIn ⟨data, readErr⟩) = [] := by
  simp only [inputPump, scan, h, List.map_nil, List.flatten_nil, List.nil_append]
  exact textOn_copierError_ne _ (by decide) _ _ _

/-! ## Claims on the copiers -/

theorem run_gotInput (name : GoString) (printAll : Bool) (st : ServerState)
    (evs : List Event) :
    (run name printAll st evs).gotInput = (st.gotInput || evs.any Event.isInput) := by
  induction evs generalizing st with
  | nil => simp [run]
  | cons ev evs ih =>
    have : run name printAll st (ev :: evs) = run name printAll (step name printAll st ev) evs :=
      rfl
    rw [this, ih]
    cases ev <;> cases hg : st.gotInput <;> simp [step, Event.isInput, hg]

theorem prefixed_ne_nil (name kind line : GoString) : prefixed name kind line ≠ [] := by
  have : lit "[" = [91] := by decide
  simp [prefixed, this]

theorem textOn_console_stderrLine (name : GoString) (printAll gotInput : Bool)
    (line : GoString) :
    textOn .console (stderrLine name printAll gotInput line)
      = if printAll || !gotInput then prefixed name (lit "err") line else [] := by
  cases printAll <;> cases gotInput <;> simp [stderrLine, textOn_cons, textOn_nil]

theorem prefixed_err (name line : GoString) :
    prefixed name (lit "err") line = lit "[" ++ name ++ lit ":err] " ++ line ++ lit "\n" := by
  have h1 : lit ":" = [58] := by decide
  have h2 : lit "err" = [101, 114, 114] := by decide
  have h3 : lit "] " = [93, 32] := by decide
  have h4 : lit ":err] " = [58, 101, 114, 114, 93, 32] := by decide
  simp [prefixed, h1, h2, h3, h4]

/-- C1: in a sequential run of one server from the initial state, a stderr line
is echoed to the console, as `[<name>:err] <line>`, if and only if `printAll`
is true or `gotInput` is still false when the line is handled; `gotInput` is
false exactly while no input line has been forwarded and never returns to
false; so with no input forwarded every stderr line is mirrored, and after an
input line has been forwarded a stderr line is mirrored only if `printAll`. -/
theorem stderr_mirroring (name : GoString) (printAll : Bool) (pre : List Event)
    (line : GoString) :
    (textOn .console
        (stepWrites name printAll (run name printAll .init pre) (.stderrLine line))
      = if printAll || !(run name printAll .init pre).gotInput
        then lit "[" ++ name ++ lit ":err] " ++ line ++ lit "\n" else []) ∧
    (textOn .console
        (stepWrites name printAll (run name printAll .init pre) (.stderrLine line))
        = lit "[" ++ name ++ lit ":err] " ++ line ++ lit "\n"
      ↔ printAll = true ∨ (run name printAll .init pre).gotInput = false) ∧
    ((run name printAll .init pre).gotInput = false ↔ ∀ e ∈ pre, e.isInput = false) ∧
    (∀ more, (run name printAll .init pre).gotInput = true →
      (run name printAll (run name printAll .init pre) more).gotInput = true) ∧
    ((∀ e ∈ pre, e.isInput = false) →
      textOn .console
        (stepWrites name printAll (run name printAll .init pre) (.stderrLine line))
        = lit "[" ++ name ++ lit ":err] " ++ line ++ lit "\n") ∧
    ((∃ e ∈ pre, e.isInput = true) →
      (textOn .console
          (stepWrites name printAll (run name printAll .init pre) (.stderrLine line))
          = lit "[" ++ name ++ lit ":err] " ++ line ++ lit "\n"
        ↔ printAll = true)) := by
  have hne : lit "[" ++ name ++ lit ":err] " ++ line ++ lit "\n" ≠ [] := by
    rw [← prefixed_err]
    exact prefixed_ne_nil name (lit "err") line
  have hflag : (run name printAll .init pre).gotInput = pre.any Event.isInput := by
    rw [run_gotInput]
    rfl
  have hiff : (run name printAll .init pre).gotInput = false ↔ ∀ e ∈ pre, e.isInput = false := by
    rw [hflag]
    simp
  simp only [stepWrites, textOn_console_stderrLine, prefixed_err]
  generalize lit "[" ++ name ++ lit ":err] " ++ line ++ lit "\n" = echo at hne ⊢
  refine ⟨trivial, ?_, hiff, ?_, ?_, ?_⟩
  · cases printAll <;> cases (run name false .init pre).gotInput <;>
      cases (run name true .init pre).gotInput <;> simp [hne.symm]
  · intro more h
    rw [run_gotInput, h]
    rfl
  · intro h
    rw [hiff.mpr h]
    simp
  · intro h
    have : (run name printAll .init pre).gotInput = true := by
      rw [hflag]
      simpa using h
    rw [this]
    cases printAll <;> simp [hne.symm]

/-- Witness of C1: after a stdout line, an input line and a stderr line, with
mirroring off, the next stderr line is not echoed. -/
theorem stderr_mirroring_witness :
    (textOn .console
        (stepWrites (lit "a") false
          (run (lit "a") false .init
            [.stdoutLine (lit "o"), .fifoLine (lit "i"), .stderrLine (lit "e")])
          (.stderrLine (lit "boom")))
      = if false || !(run (lit "a") false .init
            [.stdoutLine (lit "o"), .fifoLine (lit "i"), .stderrLine (lit "e")]).gotInput
        then lit "[a:err] boom\n" else []) ∧
    (run (lit "a") false .init
        [.stdoutLine (lit "o"), .fifoLine (lit "i"), .stderrLine (lit "e")]).gotInput = true ∧
    ((∃ e ∈ [Event.stdoutLine (lit "o"), .fifoLine (lit "i"), .stderrLine (lit "e")],
        e.isInput = true) →
      (textOn .console
          (stepWrites (lit "a") false
            (run (lit "a") false .init
              [.stdoutLine (lit "o"), .fifoLine (lit "i"), .stderrLine (lit "e")])
            (.stderrLine (lit "boom")))
          = lit "[a:err] boom\n"
        ↔ false = true)) :=
  ⟨(stderr_mirroring (lit "a") false
      [.stdoutLine (lit "o"), .fifoLine (lit "i"), .stderrLine (lit "e")] (lit "boom")).1,
    by decide,
    (stderr_mirroring (lit "a") false
      [.stdoutLine (lit "o"), .fifoLine (lit "i"), .stderrLine (lit "e")] (lit "boom")).2.2.2.2.2⟩

/-- C6, as stated, fails: a child that prints the line `x` and then 65536 bytes
without a newline has one line read from its stdout, and the log receives that
line and a further `copier error` line. -/
theorem copyWithPrefix_log_not_only_lines :
    (scan ⟨lit "x\n" ++ List.replicate 65536 97, none⟩).lines = [lit "x"] ∧
      textOn .logFile
          (copyWithPrefix (lit "a") ⟨lit "x\n" ++ List.replicate 65536 97, none⟩ (lit "out") false)
        = lit "x\n[a:out] copier error: bufio.Scanner: token too long\n" ∧
      textOn .logFile
          (copyWithPrefix (lit "a") ⟨lit "x\n" ++ List.replicate 65536 97, none⟩ (lit "out") false)
        ≠ writeLines [lit "x"] := by
  have hx : lit "x\n" = [120, 10] := by decide
  have hscan : scanLoop (lit "x\n" ++ List.replicate 65536 97) [] = ([lit "x"], true) := by
    have hd : (lit "x\n" ++ List.replicate 65536 97 : GoString)
        = [120] ++ 10 :: (List.replicate 65536 97 ++ []) := by
      rw [hx, List.append_nil]
      rfl
    rw [hd, scanLoop_line [120] _ [] (by decide) (by decide),
      scanLoop_too_long 97 (by decide) 65536 [] [] (by decide)]
    decide
  simp only [copyWithPrefix, scan, hscan]
  decide

/-- C6, amended: what `copyWithPrefix` (for stdout) and the stderr copier append
to the log file is exactly the lines read, each once, each followed by a
newline, in the order read, followed, only when the scanner stopped on an error
other than end of stream, by one `[<name>:<kind>] copier error: <error>` line;
this is the same whether mirroring is on or off and whatever `gotInput` is. -/
theorem copier_log_complete (name kind : GoString) (alsoPrint printAll : Bool)
    (loads : Nat → Bool) (r : Reader) :
    textOn .logFile (copyWithPrefix name r kind alsoPrint)
        = writeLines (scan r).lines ++ textOn .logFile (copierError name kind (scan r).err) ∧
      textOn .logFile (stderrCopier name printAll loads r)
        = writeLines (scan r).lines
            ++ textOn .logFile (copierError name (lit "err") (scan r).err) ∧
      ((scan r).err = none →
        textOn .logFile (copyWithPrefix name r kind alsoPrint) = writeLines (scan r).lines ∧
        textOn .logFile (stderrCopier name printAll loads r) = writeLines (scan r).lines) ∧
      (∀ e, (scan r).err = some e →
        textOn .logFile (copyWithPrefix name r kind alsoPrint)
          = writeLines (scan r).lines
              ++ (lit "[" ++ name ++ lit ":" ++ kind ++ lit "] copier error: " ++ e ++ lit "\n") ∧
        textOn .logFile (stderrCopier name printAll loads r)
          = writeLines (scan r).lines
              ++ (lit "[" ++ name ++ lit ":err] copier error: " ++ e ++ lit "\n")) := by
  have h1 : textOn .logFile (copyWithPrefix name r kind alsoPrint)
      = writeLines (scan r).lines ++ textOn .logFile (copierError name kind (scan r).err) := by
    simp only [copyWithPrefix, textOn_append, textOn_log_copyLines]
  have h2 : textOn .logFile (stderrCopier name printAll loads r)
      = writeLines (scan r).lines
          ++ textOn .logFile (copierError name (lit "err") (scan r).err) := by
    simp only [stderrCopier, textOn_append, textOn_log_stderrLoop]
  refine ⟨h1, h2, ?_, ?_⟩
  · intro he
    rw [h1, h2, he]
    simp [copierError, textOn_nil]
  · intro e he
    rw [h1, h2, he]
    have k1 : lit ":" = [58] := by decide
    have k2 : lit "err" = [101, 114, 114] := by decide
    have k3 : lit "] copier error: "
        = [93, 32, 99, 111, 112, 105, 101, 114, 32, 101, 114, 114, 111, 114, 58, 32] := by
      decide
    have k4 : lit ":err] copier error: "
        = [58, 101, 114, 114, 93, 32, 99, 111, 112, 105, 101, 114, 32, 101, 114, 114, 111,
            114, 58, 32] := by
      decide
    constructor
    · simp [copierError, textOn_cons, textOn_nil]
    · simp [copierError, textOn_cons, textOn_nil, k1, k2, k3, k4]

/-- Witness of the amended C6: a child that prints `x`, an empty line and an
unterminated `y`, then ends. -/
theorem copier_log_complete_witness :
    textOn .logFile (copyWithPrefix (lit "a") ⟨lit "x\n\ny", none⟩ (lit "out") false)
        = writeLines [lit "x", lit "", lit "y"] ∧
      textOn .logFile (stderrCopier (lit "a") true (fun _ => false) ⟨lit "x\n\ny", none⟩)
        = writeLines [lit "x", lit "", lit "y"] :=
  (copier_log_complete (lit "a") (lit "out") false true (fun _ => false)
    ⟨lit "x\n\ny", none⟩).2.2.1 (by decide)

/-- C7, as stated, fails: the line `a\r` written to the FIFO (as `a\r\n`)
reaches the child's stdin as `a\n`, without the carriage return; and of a line
of 65536 bytes nothing reaches the child's stdin. -/
theorem inputPump_not_identical :
    textOn .childStdin (inputPump (lit "s") false ⟨writeLines [lit "a\r"], none⟩) = lit "a\n" ∧
      textOn .childStdin (inputPump (lit "s") false ⟨writeLines [lit "a\r"], none⟩)
        ≠ writeLines [lit "a\r"] ∧
      textOn .childStdin
          (inputPump (lit "s") false ⟨writeLines [List.replicate 65536 97], none⟩) = [] ∧
      textOn .childStdin
          (inputPump (lit "s") false ⟨writeLines [List.replicate 65536 97], none⟩)
        ≠ writeLines [List.replicate 65536 97] := by
  have hdata := writeLines_single (List.replicate 65536 97)
  have hscan : scanLoop (writeLines [List.replicate 65536 97]) [] = ([], true) := by
    rw [hdata]
    exact scanLoop_too_long 97 (by decide) 65536 [10] [] (by decide)
  have hnone := inputPump_of_too_long (lit "s") false (writeLines [List.replicate 65536 97])
    none hscan
  refine ⟨by decide, by decide, hnone, ?_⟩
  rw [hnone, hdata]
  exact fun h => List.append_ne_nil_of_right_ne_nil _ (List.cons_ne_nil _ _) h.symm

/-- C7, amended: for every sequence of newline-terminated lines written to the
FIFO, each shorter than `bufio.MaxScanTokenSize` (65536) bytes, the input pump
delivers to the child's stdin exactly those lines, each without one trailing
carriage return if it had one and otherwise byte-identical, each followed by
one newline, in the order written; when no line ends in a carriage return the
delivered text is the written text. -/
theorem inputPump_round_trip (name : GoString) (printIn : Bool) (lines : List GoString)
    (readErr : Option GoString)
    (h : ∀ l ∈ lines, (10 : UInt8) ∉ l ∧ l.length < MaxScanTokenSize) :
    textOn .childStdin (inputPump name printIn ⟨writeLines lines, readErr⟩)
        = writeLines (lines.map dropCR) ∧
      ((∀ l ∈ lines, l.getLast? ≠ some 13) →
        textOn .childStdin (inputPump name printIn ⟨writeLines lines, readErr⟩)
          = writeLines lines) ∧
      (∀ delivered,
        List.Forall₂ (fun l d => l = d ++ [13] ∨ (l = d ∧ l.getLast? ≠ some 13))
          lines delivered →
        textOn .childStdin (inputPump name printIn ⟨writeLines lines, readErr⟩)
          = writeLines delivered) := by
  have h1 : textOn .childStdin (inputPump name printIn ⟨writeLines lines, readErr⟩)
      = writeLines (lines.map dropCR) := by
    simp only [inputPump, scan, scanLoop_writeLines lines h, textOn_append,
      textOn_stdin_pumpLines]
    rw [textOn_copierError_ne _ (by decide)]
    simp
  refine ⟨h1, ?_, ?_⟩
  · intro hcr
    rw [h1]
    congr 1
    calc lines.map dropCR = lines.map id :=
          List.map_congr_left (fun l hl => dropCR_of_no_cr l (hcr l hl))
      _ = lines := List.map_id _
  · intro delivered hd
    rw [h1]
    congr 1
    clear h h1
    induction hd with
    | nil => rfl
    | cons hld _ ih =>
      rw [List.map_cons, ih]
      congr 1
      rcases hld with rfl | ⟨rfl, hno⟩
      · exact dropCR_snoc_cr _
      · exact dropCR_of_no_cr _ hno

/-- Witness of the amended C7 on the lines `hello` and `wor\rld\r`. -/
theorem inputPump_round_trip_witness :
    textOn .childStdin
        (inputPump (lit "s") true ⟨writeLines [lit "hello", lit "wor\rld\r"], none⟩)
        = writeLines ([lit "hello", lit "wor\rld\r"].map dropCR) ∧
      ((∀ l ∈ [lit "hello", lit "wor\rld\r"], l.getLast? ≠ some 13) →
        textOn .childStdin
            (inputPump (lit "s") true ⟨writeLines [lit "hello", lit "wor\rld\r"], none⟩)
          = writeLines [lit "hello", lit "wor\rld\r"]) ∧
      textOn .childStdin
          (inputPump (lit "s") true ⟨writeLines [lit "hello", lit "wor\rld\r"], none⟩)
        = lit "hello\nwor\rld\n" :=
  ⟨(inputPump_round_trip (lit "s") true [lit "hello", lit "wor\rld\r"] none (by decide)).1,
    (inputPump_round_trip (lit "s") true [lit "hello", lit "wor\rld\r"] none (by decide)).2.1,
    (inputPump_round_trip (lit "s") true [lit "hello", lit "wor\rld\r"] none (by decide)).2.2
      [lit "hello", lit "wor\rld"]
      (List.Forall₂.cons (Or.inr ⟨rfl, by decide⟩)
        (List.Forall₂.cons (Or.inl (by decide)) List.Forall₂.nil))⟩

/-! ## `path/filepath` -/

theorem splitAll_append {α : Type} [DecidableEq α] (s : α) (a b : List α) :
    splitAll s (a ++ s :: b) = splitAll s a ++ splitAll s b := by
  induction a with
  | nil => simp [splitAll, splitAux]
  | cons x a ih =>
    simp only [splitAll] at ih ⊢
    injection ih with h1 h2
    rw [List.cons_append]
    by_cases hx : x = s
    · simp only [splitAux, hx, if_true, h1, h2]
      simp
    · simp only [splitAux, hx, if_false, h1, h2]
      simp

theorem splitAll_of_not_mem {α : Type} [DecidableEq α] (s : α) (e : List α) (h : s ∉ e) :
    splitAll s e = [e] := by
  induction e with
  | nil => rfl
  | cons x e ih =>
    have hx : x ≠ s := fun h0 => h (by simp [h0])
    have he : s ∉ e := fun h0 => h (List.mem_cons_of_mem _ h0)
    have ih := ih he
    simp only [splitAll] at ih ⊢
    injection ih with h1 h2
    simp [splitAux, hx, h1, h2]

theorem splitAll_joinElems (cs : List GoString) (hne : cs ≠ [])
    (h : ∀ e ∈ cs, Separator ∉ e) : splitAll Separator (joinElems cs) = cs := by
  induction cs with
  | nil => exact absurd rfl hne
  | cons c cs ih =>
    have hc := h c (List.mem_cons_self _ _)
    cases cs with
    | nil => simpa [joinElems] using splitAll_of_not_mem Separator c hc
    | cons d ds =>
      have ih := ih (by simp) (fun e he => h e (List.mem_cons_of_mem _ he))
      simp only [joinElems]
      rw [splitAll_append, splitAll_of_not_mem Separator c hc, ih]
      rfl

theorem cleanStep_real (r : Bool) (buf : CleanBuf) (e : GoString) (h : RealElem e) :
    cleanStep r buf e = ⟨buf.out ++ [e], buf.dotdot⟩ := by
  obtain ⟨h1, h2, h3, _⟩ := h
  simp [cleanStep, h1, h2, h3]

theorem normalBuf_init (r : Bool) : NormalBuf r ⟨[], 0⟩ :=
  ⟨[], by simp, by simp, fun _ => rfl⟩

theorem normalBuf_step (r : Bool) (buf : CleanBuf) (e : GoString) (h : NormalBuf r buf)
    (he : Separator ∉ e) : NormalBuf r (cleanStep r buf e) := by
  obtain ⟨reals, hout, hreal, hr⟩ := h
  unfold cleanStep
  split
  · exact ⟨reals, hout, hreal, hr⟩
  · rename_i h1
    split
    · exact ⟨reals, hout, hreal, hr⟩
    · rename_i h2
      split
      · rename_i h3
        split
        · rename_i hlen
          have hne : reals ≠ [] := by
            intro h0
            rw [hout, h0] at hlen
            simp at hlen
          refine ⟨reals.dropLast, ?_, fun x hx => hreal x (List.dropLast_subset _ hx), hr⟩
          simp only
          rw [hout, List.dropLast_append_of_ne_nil _ hne]
        · rename_i hlen
          split
          · exact ⟨reals, hout, hreal, hr⟩
          · rename_i hroot
            have hnil : reals = [] := by
              cases reals with
              | nil => rfl
              | cons x xs =>
                rw [hout] at hlen
                simp at hlen
            subst hnil
            have hlen2 : buf.out.length = buf.dotdot := by
              rw [hout]
              simp
            refine ⟨[], ?_, by simp, fun h0 => absurd h0 hroot⟩
            simp only [List.append_nil, hlen2]
            rw [hout, h3, List.append_nil, List.replicate_succ']
      · rename_i h3
        refine ⟨reals ++ [e], ?_, ?_, hr⟩
        · simp only
          rw [hout, List.append_assoc]
        · intro x hx
          rcases List.mem_append.mp hx with hx | hx
          · exact hreal x hx
          · rw [List.mem_singleton.mp hx]
            exact ⟨h1, h2, h3, he⟩

theorem normalBuf_foldl (r : Bool) (es : List GoString) (buf : CleanBuf)
    (h : NormalBuf r buf) (hes : ∀ e ∈ es, Separator ∉ e) :
    NormalBuf r (es.foldl (cleanStep r) buf) := by
  induction es generalizing buf with
  | nil => exact h
  | cons e es ih =>
    exact ih _ (normalBuf_step r buf e h (hes e (List.mem_cons_self _ _)))
      (fun x hx => hes x (List.mem_cons_of_mem _ hx))

theorem normalBuf_cleanBuf (path : GoString) : NormalBuf (isRooted path) (cleanBuf path) :=
  normalBuf_foldl _ _ _ (normalBuf_init _) (not_mem_splitAll Separator path)

theorem foldl_cleanStep_reals (r : Bool) (reals : List GoString) (buf : CleanBuf)
    (h : ∀ e ∈ reals, RealElem e) :
    reals.foldl (cleanStep r) buf = ⟨buf.out ++ reals, buf.dotdot⟩ := by
  induction reals generalizing buf with
  | nil => simp
  | cons e es ih =>
    rw [List.foldl_cons, cleanStep_real r buf e (h e (List.mem_cons_self _ _)),
      ih _ (fun x hx => h x (List.mem_cons_of_mem _ hx))]
    simp

theorem foldl_cleanStep_dotdots (k : Nat) :
    (List.replicate k (lit "..")).foldl (cleanStep false) ⟨[], 0⟩
      = ⟨List.replicate k (lit ".."), k⟩ := by
  induction k with
  | zero => rfl
  | succ k ih =>
    rw [List.replicate_succ', List.foldl_append, ih]
    have h1 : lit ".." ≠ [] := by decide
    have h2 : lit ".." ≠ lit "." := by decide
    simp [cleanStep, h1, h2]

theorem foldl_cleanStep_out (r : Bool) (buf : CleanBuf) (h : NormalBuf r buf) :
    buf.out.foldl (cleanStep r) ⟨[], 0⟩ = buf := by
  obtain ⟨out, d⟩ := buf
  obtain ⟨reals, hout, hreal, hr⟩ := h
  simp only at hout hr
  subst hout
  rw [List.foldl_append]
  cases r with
  | true =>
    have hd : d = 0 := hr rfl
    subst hd
    rw [List.replicate_zero, List.foldl_nil, foldl_cleanStep_reals _ _ _ hreal]
  | false =>
    rw [foldl_cleanStep_dotdots, foldl_cleanStep_reals _ _ _ hreal]

theorem normalBuf_plain (r : Bool) (buf : CleanBuf) (h : NormalBuf r buf) :
    ∀ e ∈ buf.out, PlainElem e := by
  obtain ⟨reals, hout, hreal, _⟩ := h
  intro e he
  rw [hout] at he
  rcases List.mem_append.mp he with he | he
  · rw [(List.mem_replicate.mp he).2]
    exact ⟨by decide, by decide, by decide⟩
  · obtain ⟨h1, h2, _, h4⟩ := hreal e he
    exact ⟨h1, h2, h4⟩

theorem normalBuf_snoc (r : Bool) (buf : CleanBuf) (x : GoString) (h : NormalBuf r buf)
    (hx : RealElem x) : NormalBuf r ⟨buf.out ++ [x], buf.dotdot⟩ := by
  have := normalBuf_step r buf x h hx.2.2.2
  rwa [cleanStep_real r buf x hx] at this

theorem head_joinElems (cs : List GoString) (h : ∀ e ∈ cs, PlainElem e) :
    (joinElems cs).head? ≠ some Separator := by
  cases cs with
  | nil => simp [joinElems]
  | cons c cs =>
    obtain ⟨h1, _, h3⟩ := h c (List.mem_cons_self _ _)
    cases c with
    | nil => exact absurd rfl h1
    | cons b bs =>
      have hb : b ≠ Separator := fun h0 => h3 (by simp [h0])
      cases cs <;> simpa [joinElems] using hb

theorem joinElems_append (cs ext : List GoString) (hcs : cs ≠ []) (hext : ext ≠ []) :
    joinElems (cs ++ ext) = joinElems cs ++ Separator :: joinElems ext := by
  induction cs with
  | nil => exact absurd rfl hcs
  | cons c cs ih =>
    cases cs with
    | nil =>
      cases ext with
      | nil => exact absurd rfl hext
      | cons e es => simp [joinElems]
    | cons d ds =>
      have ih := ih (by simp)
      simp only [List.cons_append] at ih ⊢
      simp only [joinElems, ih]
      simp

theorem joinElems_ne_dot (cs : List GoString) (h : ∀ e ∈ cs, PlainElem e) :
    joinElems cs ≠ lit "." := by
  have hdot : lit "." = [46] := by decide
  cases cs with
  | nil => simp [joinElems, hdot]
  | cons c cs =>
    obtain ⟨h1, h2, _⟩ := h c (List.mem_cons_self _ _)
    cases cs with
    | nil => simpa [joinElems] using h2
    | cons d ds =>
      intro h0
      have := congrArg List.length h0
      simp only [joinElems, hdot, List.length_append, List.length_cons, List.length_nil] at this
      have : c.length = 0 := by omega
      exact h1 (List.length_eq_zero.mp this)

theorem Clean_eq_render (path : GoString) :
    Clean path = render (isRooted path) (cleanBuf path).out := by
  unfold Clean
  split
  · rename_i h
    subst h
    decide
  · rfl

theorem render_rooted_buf (r : Bool) (buf : CleanBuf) (h : NormalBuf r buf)
    (hne : buf.out ≠ []) :
    isRooted (render r buf.out) = r ∧ cleanBuf (render r buf.out) = buf := by
  have hplain := normalBuf_plain r buf h
  have hsep : ∀ e ∈ buf.out, Separator ∉ e := fun e he => (hplain e he).2.2
  have hroot : isRooted (render r buf.out) = r := by
    cases r with
    | true => simp [render, isRooted]
    | false =>
      have := head_joinElems buf.out hplain
      simp only [render, hne, if_false, isRooted, Bool.false_eq_true]
      simpa using this
  refine ⟨hroot, ?_⟩
  unfold cleanBuf
  rw [hroot]
  cases r with
  | true =>
    have hsplit : splitAll Separator (render true buf.out) = [] :: buf.out := by
      have := splitAll_append Separator [] (joinElems buf.out)
      simp only [List.nil_append] at this
      simp only [render, if_true]
      rw [this, splitAll_joinElems _ hne hsep]
      rfl
    rw [hsplit, List.foldl_cons]
    have : cleanStep true ⟨[], 0⟩ [] = ⟨[], 0⟩ := by simp [cleanStep]
    rw [this]
    exact foldl_cleanStep_out true buf h
  | false =>
    have hsplit : splitAll Separator (render false buf.out) = buf.out := by
      simp only [render, hne, if_false, Bool.false_eq_true]
      exact splitAll_joinElems _ hne hsep
    rw [hsplit]
    exact foldl_cleanStep_out false buf h

theorem Join_pair (b x : GoString) (hx : RealElem x) :
    Join [b, x] = render (isRooted b) ((cleanBuf b).out ++ [x]) := by
  obtain ⟨hx1, hx2, hx3, hx4⟩ := hx
  have hxr : RealElem x := ⟨hx1, hx2, hx3, hx4⟩
  by_cases hb : b = []
  · subst hb
    have hj : Join [[], x] = Clean x := by
      simp [Join, List.dropWhile, hx1, joinElems]
    have hroot : isRooted x = false := by
      cases x with
      | nil => exact absurd rfl hx1
      | cons c cs =>
        have : c ≠ Separator := fun h0 => hx4 (by simp [h0])
        simpa [isRooted] using this
    have hbuf : cleanBuf x = ⟨[x], 0⟩ := by
      unfold cleanBuf
      rw [splitAll_of_not_mem Separator x hx4, hroot, List.foldl_cons, List.foldl_nil,
        cleanStep_real _ _ _ hxr]
      rfl
    rw [hj, Clean_eq_render, hroot, hbuf]
    rfl
  · have hj : Join [b, x] = Clean (b ++ Separator :: x) := by
      simp [Join, List.dropWhile, hb, joinElems]
    have hroot : isRooted (b ++ Separator :: x) = isRooted b := by
      cases b with
      | nil => exact absurd rfl hb
      | cons c cs => rfl
    have hbuf : cleanBuf (b ++ Separator :: x)
        = ⟨(cleanBuf b).out ++ [x], (cleanBuf b).dotdot⟩ := by
      unfold cleanBuf
      rw [splitAll_append, splitAll_of_not_mem Separator x hx4, hroot, List.foldl_append,
        List.foldl_cons, List.foldl_nil, cleanStep_real _ _ _ hxr]
    rw [hj, Clean_eq_render, hroot, hbuf]

theorem takeWhile_elem (c tail : GoString) (hc : Separator ∉ c)
    (ht : tail = [] ∨ ∃ t, tail = Separator :: t) :
    (c ++ tail).takeWhile (fun b => decide (b ≠ Separator)) = c := by
  induction c with
  | nil =>
    rcases ht with rfl | ⟨t, rfl⟩ <;> simp [List.takeWhile]
  | cons b bs ih =>
    have hb : b ≠ Separator := fun h0 => hc (by simp [h0])
    have := ih (fun h0 => hc (List.mem_cons_of_mem _ h0))
    simp only [ne_eq, decide_not] at this
    simp [List.takeWhile, hb, this]

theorem relLoop_elem (n : Nat) (c bTail t : GoString) (hne : c ≠ []) (hc : Separator ∉ c)
    (ht : bTail = [] ∨ ∃ b, bTail = Separator :: b) :
    relLoop (n + 1) (c ++ bTail) (c ++ Separator :: t) = relLoop n (bTail.drop 1) t := by
  have h1 : c ++ bTail ≠ [] := by simp [hne]
  have h2 : c ++ Separator :: t ≠ [] := by simp
  have e1 := takeWhile_elem c bTail hc ht
  have e2 := takeWhile_elem c (Separator :: t) hc (Or.inr ⟨t, rfl⟩)
  rw [relLoop]
  simp only [h1, h2, or_self, if_false, e1, e2, ne_eq, not_true_eq_false]
  simp

theorem relLoop_common (cs ext : List GoString) (fuel : Nat)
    (h : ∀ e ∈ cs, PlainElem e) (hext : ext ≠ [])
    (hfuel : (joinElems cs).length ≤ fuel) :
    relLoop fuel (joinElems cs) (joinElems (cs ++ ext)) = some ⟨[], [], joinElems ext⟩ := by
  induction cs generalizing fuel with
  | nil =>
    cases fuel <;> simp [relLoop, joinElems]
  | cons c cs ih =>
    obtain ⟨hne, _, hsep⟩ := h c (List.mem_cons_self _ _)
    have ih := fun n hn => ih n (fun e he => h e (List.mem_cons_of_mem _ he)) hn
    have htarg : joinElems (c :: cs ++ ext) = c ++ Separator :: joinElems (cs ++ ext) := by
      have : joinElems ([c] ++ (cs ++ ext)) = joinElems [c] ++ Separator :: joinElems (cs ++ ext) :=
        joinElems_append [c] (cs ++ ext) (by simp) (by simp [hext])
      simpa [joinElems] using this
    have hclen : 0 < c.length := List.length_pos.mpr hne
    cases cs with
    | nil =>
      have hbase : joinElems [c] = c ++ [] := by simp [joinElems]
      rw [htarg, hbase]
      rw [hbase] at hfuel
      simp only [List.append_nil] at hfuel
      obtain ⟨n, rfl⟩ : ∃ n, fuel = n + 1 := ⟨fuel - 1, by omega⟩
      rw [relLoop_elem n c [] _ hne hsep (Or.inl rfl)]
      exact ih n (by simp [joinElems])
    | cons d ds =>
      have hbase : joinElems (c :: d :: ds) = c ++ Separator :: joinElems (d :: ds) := rfl
      rw [htarg, hbase]
      rw [hbase] at hfuel
      simp only [List.length_append, List.length_cons] at hfuel
      obtain ⟨n, rfl⟩ : ∃ n, fuel = n + 1 := ⟨fuel - 1, by omega⟩
      rw [relLoop_elem n c _ _ hne hsep (Or.inr ⟨_, rfl⟩)]
      exact ih n (by omega)

theorem render_eq_pre (r : Bool) (cs : List GoString) (hne : cs ≠ []) :
    render r cs = (if r then [Separator] else []) ++ joinElems cs := by
  cases r <;> simp [render, hne]

theorem relClean_common (r : Bool) (cs ext : List GoString)
    (h : ∀ e ∈ cs, PlainElem e) (hext : ∀ e ∈ ext, PlainElem e) (hlen : 2 ≤ ext.length) :
    relClean (render r cs) (render r (cs ++ ext)) = some (joinElems ext) := by
  have hextne : ext ≠ [] := by
    intro h0
    subst h0
    simp at hlen
  have hall : ∀ e ∈ cs ++ ext, PlainElem e := by
    intro e he
    rcases List.mem_append.mp he with he | he
    · exact h e he
    · exact hext e he
  have htarg : render r (cs ++ ext) = (if r then [Separator] else []) ++ joinElems (cs ++ ext) :=
    render_eq_pre r _ (by simp [hextne])
  -- the base after `"."` has been replaced by `""`
  have hbase : (if render r cs = lit "." then [] else render r cs)
      = (if r then [Separator] else []) ++ joinElems cs := by
    cases r with
    | true =>
      have : render true cs ≠ lit "." := by
        have hdot : lit "." = [46] := by decide
        simp [render, hdot, Separator]
      rw [if_neg this]
      simp [render]
    | false =>
      by_cases hcs : cs = []
      · subst hcs
        simp [render, joinElems]
      · have : render false cs ≠ lit "." := by
          simpa [render, hcs] using joinElems_ne_dot cs h
        rw [if_neg this]
        simp [render, hcs]
  -- the two paths differ
  have hlong : 2 ≤ (joinElems ext).length := by
    match ext, hlen, hext with
    | a :: b :: rest, _, hext =>
      have ha : a ≠ [] := (hext a (by simp)).1
      have := List.length_pos.mpr ha
      have hj : joinElems (a :: b :: rest) = a ++ Separator :: joinElems (b :: rest) := rfl
      rw [hj]
      simp only [List.length_append, List.length_cons]
      omega
  have hdiff : render r (cs ++ ext) ≠ render r cs := by
    intro h0
    have hl := congrArg List.length h0
    by_cases hcs : cs = []
    · subst hcs
      cases r with
      | true =>
        simp only [List.nil_append, render, if_true, joinElems, List.length_cons,
          List.length_nil] at hl
        omega
      | false =>
        have hdot : lit "." = [46] := by decide
        simp only [List.nil_append, render, hextne, if_false, Bool.false_eq_true, if_true,
          hdot, List.length_cons, List.length_nil] at hl
        omega
    · rw [htarg, render_eq_pre r cs hcs, joinElems_append cs ext hcs hextne] at hl
      simp only [List.length_append, List.length_cons] at hl
      omega
  have hslash : ∀ l : List GoString, (∀ e ∈ l, PlainElem e) →
      (((if r then [Separator] else []) ++ joinElems l).head? == some Separator) = r := by
    intro l hl
    cases r with
    | true => simp
    | false =>
      have := head_joinElems l hl
      simpa using this
  have hloop : relLoop ((if r then [Separator] else []) ++ joinElems cs).length
      ((if r then [Separator] else []) ++ joinElems cs)
      ((if r then [Separator] else []) ++ joinElems (cs ++ ext))
      = some ⟨[], [], joinElems ext⟩ := by
    cases r with
    | true =>
      simp only [if_true, List.singleton_append, List.length_cons]
      rw [relLoop]
      simp only [List.cons_ne_nil, or_self, if_false, List.takeWhile_cons, ne_eq,
        not_true_eq_false, decide_False, Bool.false_eq_true, List.length_nil, List.drop_zero,
        List.drop_succ_cons]
      exact relLoop_common cs ext _ h hextne (le_refl _)
    | false =>
      simp only [Bool.false_eq_true, if_false, List.nil_append]
      exact relLoop_common cs ext _ h hextne (le_refl _)
  unfold relClean
  rw [if_neg hdiff]
  simp only [hbase]
  rw [htarg, hslash cs h, hslash _ hall]
  simp only [bne_self_eq_false, Bool.false_eq_true, if_false, hloop]
  have hdd : ([] : GoString) ≠ lit ".." := by decide
  simp [hdd]

theorem Rel_Join_Join (b x f : GoString) (hx : RealElem x) (hf : RealElem f) :
    Rel b (Join [Join [b, x], f]) = some (x ++ Separator :: f) := by
  have hB0 := normalBuf_cleanBuf b
  have hB1 := normalBuf_snoc _ _ x hB0 hx
  have hne1 : (cleanBuf b).out ++ [x] ≠ [] := by simp
  obtain ⟨hr1, hc1⟩ := render_rooted_buf _ _ hB1 hne1
  simp only at hr1 hc1
  have hB2 := normalBuf_snoc _ _ f hB1 hf
  simp only at hB2
  have hne2 : (cleanBuf b).out ++ [x] ++ [f] ≠ [] := by simp
  obtain ⟨hr2, hc2⟩ := render_rooted_buf _ _ hB2 hne2
  simp only at hr2 hc2
  have hfifo : Join [Join [b, x], f] = render (isRooted b) ((cleanBuf b).out ++ [x] ++ [f]) := by
    rw [Join_pair b x hx, Join_pair _ f hf, hr1, hc1]
  have hplain : ∀ e ∈ [x, f], PlainElem e := by
    intro e he
    rcases List.mem_cons.mp he with rfl | he
    · exact ⟨hx.1, hx.2.1, hx.2.2.2⟩
    · rw [List.mem_singleton.mp he]
      exact ⟨hf.1, hf.2.1, hf.2.2.2⟩
  unfold Rel
  rw [hfifo, Clean_eq_render (render _ _), hr2, hc2, Clean_eq_render b, List.append_assoc]
  have := relClean_common (isRooted b) (cleanBuf b).out [x, f]
    (normalBuf_plain _ _ hB0) hplain (by simp)
  simpa [joinElems] using this

theorem realElem_file (name ext : GoString) (hname : ∀ b ∈ name, isWordByte b = true)
    (hext : Separator ∉ ext) (hlen : 3 ≤ ext.length) : RealElem (name ++ ext) := by
  have hl : 3 ≤ (name ++ ext).length := by
    simp only [List.length_append]
    omega
  refine ⟨?_, ?_, ?_, ?_⟩
  · intro h0
    rw [h0] at hl
    simp at hl
  · intro h0
    rw [h0] at hl
    revert hl
    decide
  · intro h0
    rw [h0] at hl
    revert hl
    decide
  · intro h0
    rcases List.mem_append.mp h0 with h1 | h1
    · exact absurd (hname _ h1) (by decide)
    · exact hext h1

theorem Rel_fifoPath (baseDir name : GoString) (hname : ∀ b ∈ name, isWordByte b = true) :
    Rel baseDir (fifoPath baseDir name) = some (lit ".mcpio/" ++ name ++ lit ".in.fifo") := by
  have hx : RealElem (lit ".mcpio") := ⟨by decide, by decide, by decide, by decide⟩
  have hf := realElem_file name (lit ".in.fifo") hname (by decide) (by decide)
  have := Rel_Join_Join baseDir (lit ".mcpio") (name ++ lit ".in.fifo") hx hf
  have hpre : lit ".mcpio/" = lit ".mcpio" ++ [Separator] := by decide
  rw [hpre]
  simpa [fifoPath, mcpDir] using this

theorem Rel_outLogPath (baseDir name : GoString) (hname : ∀ b ∈ name, isWordByte b = true) :
    Rel baseDir (outLogPath baseDir name) = some (lit ".mcpio/" ++ name ++ lit ".out.log") := by
  have hx : RealElem (lit ".mcpio") := ⟨by decide, by decide, by decide, by decide⟩
  have hf := realElem_file name (lit ".out.log") hname (by decide) (by decide)
  have := Rel_Join_Join baseDir (lit ".mcpio") (name ++ lit ".out.log") hx hf
  have hpre : lit ".mcpio/" = lit ".mcpio" ++ [Separator] := by decide
  rw [hpre]
  simpa [outLogPath, mcpDir] using this

theorem filesLine_eq (baseDir name : GoString) (hname : ∀ b ∈ name, isWordByte b = true) :
    filesLine baseDir name
      = lit "[" ++ name ++ lit ":files]: " ++ (lit ".mcpio/" ++ name ++ lit ".in.fifo")
          ++ lit " " ++ (lit ".mcpio/" ++ name ++ lit ".out.log") ++ lit "\n" := by
  unfold filesLine
  rw [Rel_fifoPath baseDir name hname, Rel_outLogPath baseDir name hname]
  rfl

/-! ## Claims on the announcement and on name collisions -/

/-- C8, as stated, fails: for the base directory `.` and the server `a cat` the
announcement is `[a:files]: .mcpio/a.in.fifo .mcpio/a.out.log`, with a colon
behind the bracket. -/
theorem filesLine_has_colon :
    (runServerSetup ⟨none, none, none, none, none, none, none, none⟩ (lit ".")
        ⟨lit "a", [lit "cat"]⟩).stdout
      = [lit "[a:files]: .mcpio/a.in.fifo .mcpio/a.out.log\n"] ∧
    (runServerSetup ⟨none, none, none, none, none, none, none, none⟩ (lit ".")
        ⟨lit "a", [lit "cat"]⟩).stdout
      ≠ [lit "[a:files] .mcpio/a.in.fifo .mcpio/a.out.log\n"] := by
  decide

/-- C8, amended: for every base directory and every spec whose process is
spawned, `runServer` writes to the console exactly one line,
`[<name>:files]: <relFifo> <relLog>` and a newline, where `<name>` is
`sanitizeName(spec.Name)`, `<relFifo>` is `.mcpio/<name>.in.fifo` and `<relLog>`
is `.mcpio/<name>.out.log`, which are the two paths relative to the base
directory. -/
theorem runServer_announcement (env : SetupEnv) (baseDir : GoString) (spec : serverSpec)
    (h : Spawned env spec) :
    (runServerSetup env baseDir spec).stdout
        = [lit "[" ++ sanitizeName spec.Name ++ lit ":files]: "
            ++ (lit ".mcpio/" ++ sanitizeName spec.Name ++ lit ".in.fifo") ++ lit " "
            ++ (lit ".mcpio/" ++ sanitizeName spec.Name ++ lit ".out.log") ++ lit "\n"] ∧
      Rel baseDir (fifoPath baseDir (sanitizeName spec.Name))
        = some (lit ".mcpio/" ++ sanitizeName spec.Name ++ lit ".in.fifo") ∧
      Rel baseDir (outLogPath baseDir (sanitizeName spec.Name))
        = some (lit ".mcpio/" ++ sanitizeName spec.Name ++ lit ".out.log") := by
  obtain ⟨h1, h2, h3, h4, h5, h6, h7, h8⟩ := h
  have hw := sanitizeName_word spec.Name
  refine ⟨?_, Rel_fifoPath _ _ hw, Rel_outLogPath _ _ hw⟩
  obtain ⟨n, cmd⟩ := spec
  cases cmd with
  | nil => exact absurd rfl h4
  | cons c cs =>
    simp only [runServerSetup, h1, h2, h3, h5, h6, h7, h8]
    cases env.openFifo <;> simp only [filesLine_eq _ _ hw]

/-- Witness of the amended C8: the server `my srv`, command `cat`, under the
base directory `/tmp/../work/`, with a FIFO that cannot be opened afterwards. -/
theorem runServer_announcement_witness :
    (runServerSetup ⟨none, none, none, none, none, none, none, some (lit "busy")⟩
        (lit "/tmp/../work/") ⟨lit "my srv", [lit "cat"]⟩).stdout
        = [lit "[" ++ sanitizeName (lit "my srv") ++ lit ":files]: "
            ++ (lit ".mcpio/" ++ sanitizeName (lit "my srv") ++ lit ".in.fifo") ++ lit " "
            ++ (lit ".mcpio/" ++ sanitizeName (lit "my srv") ++ lit ".out.log") ++ lit "\n"] ∧
      Rel (lit "/tmp/../work/") (fifoPath (lit "/tmp/../work/") (sanitizeName (lit "my srv")))
        = some (lit ".mcpio/" ++ sanitizeName (lit "my srv") ++ lit ".in.fifo") ∧
      Rel (lit "/tmp/../work/") (outLogPath (lit "/tmp/../work/") (sanitizeName (lit "my srv")))
        = some (lit ".mcpio/" ++ sanitizeName (lit "my srv") ++ lit ".out.log") :=
  runServer_announcement ⟨none, none, none, none, none, none, none, some (lit "busy")⟩
    (lit "/tmp/../work/") ⟨lit "my srv", [lit "cat"]⟩
    ⟨rfl, rfl, rfl, by decide, rfl, rfl, rfl, rfl⟩

/-- C9, as stated, fails: `sanitizeName("svc-1")` is `svc-1`, not `svc_1`, and
under the base directory `.` the two servers derive different FIFO paths and
different log paths. -/
theorem svc_dash_not_collide :
    sanitizeName (lit "svc-1") = lit "svc-1" ∧
      sanitizeName (lit "svc-1") ≠ lit "svc_1" ∧
      fifoPath (lit ".") (sanitizeName (lit "svc 1"))
        ≠ fifoPath (lit ".") (sanitizeName (lit "svc-1")) ∧
      outLogPath (lit ".") (sanitizeName (lit "svc 1"))
        ≠ outLogPath (lit ".") (sanitizeName (lit "svc-1")) := by
  decide

/-- C9, amended: `sanitizeName("svc 1")` is `svc_1` and `sanitizeName("svc-1")`
is `svc-1` (the dash is allowed), so under every base directory servers with
these two names derive different FIFO paths and different log paths; the names
`svc 1` and `svc.1` both sanitize to `svc_1` and derive the same FIFO path and
the same log path. -/
theorem name_collision (baseDir : GoString) :
    sanitizeName (lit "svc 1") = lit "svc_1" ∧
      sanitizeName (lit "svc-1") = lit "svc-1" ∧
      fifoPath baseDir (sanitizeName (lit "svc 1"))
        ≠ fifoPath baseDir (sanitizeName (lit "svc-1")) ∧
      outLogPath baseDir (sanitizeName (lit "svc 1"))
        ≠ outLogPath baseDir (sanitizeName (lit "svc-1")) ∧
      sanitizeName (lit "svc.1") = lit "svc_1" ∧
      fifoPath baseDir (sanitizeName (lit "svc 1"))
        = fifoPath baseDir (sanitizeName (lit "svc.1")) ∧
      outLogPath baseDir (sanitizeName (lit "svc 1"))
        = outLogPath baseDir (sanitizeName (lit "svc.1")) := by
  have h1 : sanitizeName (lit "svc 1") = lit "svc_1" := by decide
  have h2 : sanitizeName (lit "svc-1") = lit "svc-1" := by decide
  have h3 : sanitizeName (lit "svc.1") = lit "svc_1" := by decide
  have hw1 : ∀ b ∈ lit "svc_1", isWordByte b = true := by decide
  have hw2 : ∀ b ∈ lit "svc-1", isWordByte b = true := by decide
  refine ⟨h1, h2, ?_, ?_, h3, by rw [h1, h3], by rw [h1, h3]⟩
  · rw [h1, h2]
    intro h
    have := congrArg (Rel baseDir) h
    rw [Rel_fifoPath _ _ hw1, Rel_fifoPath _ _ hw2] at this
    revert this
    decide
  · rw [h1, h2]
    intro h
    have := congrArg (Rel baseDir) h
    rw [Rel_outLogPath _ _ hw1, Rel_outLogPath _ _ hw2] at this
    revert this
    decide

end Mcpio
